import Mathlib

/-!
Verification of the LSB steganography core of `backend/steganography.py`
(`class ImageSteganography`).

The pixel buffer is modelled as the flattened row-major, channel-minor list of
8-bit samples (`np.array(img).flatten()`), i.e. a `List Nat` whose entries are
intended to lie in `[0, 255]`.  Payloads are modelled as the list of character
codes that the Python code iterates over (`ord(char)` per character); for the
ASCII/byte payloads that the claims are about these are exactly the payload
bytes.  Fallible code returns `Except StegoError`, and the in-place numpy
mutation of `hide_data` is modelled as explicit state passing
(`hide_data_run` returns the buffer that is live after the call).
-/

set_option maxRecDepth 8000

deriving instance DecidableEq for Except

namespace ImageSteganography

/-- The error kinds raised by the core.  Each constructor corresponds to one
`raise` site (its message is given in the comment), except `malformedEnvelope`,
which is the kind the specification postulates for envelope-length validation
and which no code path produces. -/
inductive StegoError where
  /-- `"Image too small. Need {n} bits, have {m}"` in `hide_data`. -/
  | capacityExceeded
  /-- `"No hidden data found or data corrupted"` in `extract_data`. -/
  | noHiddenData
  /-- `"Invalid data length - not divisible by 8"` in `extract_data`. -/
  | invalidLength
  /-- `"No valid data could be extracted"` in `extract_data`. -/
  | noValidData
  /-- `"Incorrect password or corrupted encrypted data"` in `extract_data`. -/
  | wrongPassword
  /-- the generic `"Decryption failed: ..."` wrap in `_decrypt_data` for
  base64 or cipher-construction errors. -/
  | decryptionFailed
  /-- the `"MAC check failed"` error of `decrypt_and_verify`, re-raised by
  `_decrypt_data` as `"Decryption failed: MAC check failed"`. -/
  | authenticationFailure
  /-- postulated by the specification only; never raised by the code. -/
  | malformedEnvelope
  deriving DecidableEq

/-- `self.delimiter = '1111111111111110'`: the 16-bit end-of-data marker,
as a list of bits (`true` = `'1'`). -/
def delim : List Bool :=
  [true, true, true, true, true, true, true, true,
   true, true, true, true, true, true, true, false]

/-- `format(ord(char), '08b')`: the 8-bit MSB-first binary expansion of a
character code `b < 256`. -/
def byteToBits (b : Nat) : List Bool :=
  [b.testBit 7, b.testBit 6, b.testBit 5, b.testBit 4,
   b.testBit 3, b.testBit 2, b.testBit 1, b.testBit 0]

/-- `''.join(format(ord(char), '08b') for char in data)`: the payload's bit
sequence, one 8-bit group per character, MSB first. -/
def bytesToBits : List Nat → List Bool
  | [] => []
  | b :: rest => byteToBits b ++ bytesToBits rest

/-- `(flat_img[i] & 0xFE) | int(bit)`: replace the least significant bit of a
sample with the given bit. -/
def setLSB (v : Nat) (b : Bool) : Nat := (v &&& 254) ||| b.toNat

/-- The embedding loop
`for i, bit in enumerate(binary_data): if i < len(flat_img): flat_img[i] = (flat_img[i] & 0xFE) | int(bit)`:
sample `i` receives bit `i`; samples beyond the bit sequence are untouched. -/
def embedBits : List Nat → List Bool → List Nat
  | buf, [] => buf
  | [], _ => []
  | v :: buf, b :: bits => setLSB v b :: embedBits buf bits

/-- `hide_data` (no-password path), lines 28–49, as explicit state passing:
build `binary_data = payload bits ++ delimiter`, raise `capacityExceeded` if it
is longer than the sample count (before touching any sample — the returned
buffer is the original one), otherwise write the bits into the LSBs. -/
def hide_data_run (buf payload : List Nat) : Except StegoError Unit × List Nat :=
  let binary_data := bytesToBits payload ++ delim
  if binary_data.length > buf.length then (Except.error StegoError.capacityExceeded, buf)
  else (Except.ok (), embedBits buf binary_data)

/-- `hide_data`'s body (inside its `try`): the successfully mutated buffer, or
the error raised. -/
def hide_data_core (buf payload : List Nat) : Except StegoError (List Nat) :=
  match hide_data_run buf payload with
  | (Except.ok _, out) => Except.ok out
  | (Except.error e, _) => Except.error e

/-- `hide_data` as the caller sees it: the function's
`except Exception as e: print(...); return None` converts every failure into
the non-error return value `None`. -/
def hide_data (buf payload : List Nat) : Option (List Nat) :=
  match hide_data_core buf payload with
  | Except.ok out => some out
  | Except.error _ => none

/-- `str(pixel_value & 1)`: the least significant bit of a sample. -/
def lsbBit (v : Nat) : Bool := decide (v &&& 1 = 1)

/-- `binary_data.find(self.delimiter)`: index of the first occurrence of the
16-bit delimiter in the bit stream (`none` for Python's `-1`). -/
def findDelim : List Bool → Option Nat
  | [] => none
  | a :: t =>
    if delim.isPrefixOf (a :: t) then some 0
    else (findDelim t).map (· + 1)

/-- `int(byte, 2)` on an 8-character binary string: MSB-first binary value. -/
def bitsToByte (bits : List Bool) : Nat :=
  bits.foldl (fun acc b => 2 * acc + b.toNat) 0

/-- The byte-reconstruction loop of `extract_data` (lines 101–109): take the
bits 8 at a time; a code in `0..127` is appended to the text, the first code
above 127 stops the loop (`break  # Invalid character, might be end of data`). -/
def bitsToBytesTrunc : List Bool → List Nat
  | b7 :: b6 :: b5 :: b4 :: b3 :: b2 :: b1 :: b0 :: rest =>
    let char_code := bitsToByte [b7, b6, b5, b4, b3, b2, b1, b0]
    if char_code ≤ 127 then char_code :: bitsToBytesTrunc rest else []
  | _ => []

/-- `extract_data` (no-password path), lines 71–122: collect every sample's
LSB, find the delimiter (`noHiddenData` if absent), cut the stream before it,
require a multiple of 8 bits (`invalidLength`), reconstruct the characters
with the truncating loop, and reject an empty result (`noValidData`). -/
def extract_data (buf : List Nat) : Except StegoError (List Nat) :=
  let binary_data := buf.map lsbBit
  match findDelim binary_data with
  | none => Except.error StegoError.noHiddenData
  | some d =>
    let actual_binary_data := binary_data.take d
    if actual_binary_data.length % 8 ≠ 0 then Except.error StegoError.invalidLength
    else
      let extracted_text := bitsToBytesTrunc actual_binary_data
      if extracted_text = [] then Except.error StegoError.noValidData
      else Except.ok extracted_text

/-- The dictionary returned by `analyze_image_capacity`. -/
structure CapacityReport where
  total_pixels : Nat
  max_characters : Int
  max_bytes : Int
  deriving DecidableEq

/-- `analyze_image_capacity`, lines 176–194:
`max_chars = (total_pixels - len(self.delimiter)) // 8` with Python's floor
division (`Int.fdiv`).  The function only reads the pixel buffer; the second
component is the buffer that is live after the call, modelling that no sample
is written. -/
def analyze_image_capacity (buf : List Nat) : CapacityReport × List Nat :=
  let total_pixels := buf.length
  let max_chars : Int := ((total_pixels : Int) - (delim.length : Int)).fdiv 8
  (⟨total_pixels, max_chars, max_chars⟩, buf)

/-- Value of a base64 alphabet character (`A-Z a-z 0-9 + /`). -/
def b64CharVal (c : Char) : Option Nat :=
  if 'A' ≤ c ∧ c ≤ 'Z' then some (c.toNat - 65)
  else if 'a' ≤ c ∧ c ≤ 'z' then some (c.toNat - 97 + 26)
  else if '0' ≤ c ∧ c ≤ '9' then some (c.toNat - 48 + 52)
  else if c = '+' then some 62
  else if c = '/' then some 63
  else none

/-- Decode base64 four characters at a time; `=` padding is accepted only at
the very end (`xx==` or `xxx=`); a leftover group of fewer than four
characters is Python's `binascii.Error: Incorrect padding`. -/
def b64Quads : List Char → Option (List Nat)
  | [] => some []
  | c1 :: c2 :: c3 :: c4 :: rest =>
    match b64CharVal c1, b64CharVal c2 with
    | some v1, some v2 =>
      if c3 = '=' then
        if c4 = '=' ∧ rest = [] then some [4 * v1 + v2 / 16] else none
      else
        match b64CharVal c3 with
        | some v3 =>
          if c4 = '=' then
            if rest = [] then some [4 * v1 + v2 / 16, 16 * (v2 % 16) + v3 / 4]
            else none
          else
            match b64CharVal c4 with
            | some v4 =>
              (b64Quads rest).map
                (fun t => (4 * v1 + v2 / 16) ::
                  (16 * (v2 % 16) + v3 / 4) :: (64 * (v3 % 4) + v4) :: t)
            | none => none
        | none => none
    | _, _ => none
  | _ :: _ => none

/-- `base64.b64decode(encrypted_data.encode('utf-8'))`: the standard library
decoder used by `_decrypt_data` — characters outside the alphabet are
discarded before decoding, then the groups of four are decoded; `none` models
the `binascii.Error` exception. -/
def b64decode (s : String) : Option (List Nat) :=
  b64Quads (s.toList.filter fun c => (b64CharVal c).isSome || c == '=')

/-- The external AEAD collaborator (`AES.new(key, AES.MODE_GCM, nonce=...)`
with `decrypt_and_verify`): an abstract MAC over the ciphertext whose tag is
always 16 bytes, and an abstract raw decryption.  The concrete cipher is
library code outside this repository. -/
structure AEAD where
  mac : List Nat → List Nat → List Nat → List Nat
  dec : List Nat → List Nat → List Nat → List Nat
  mac_length : ∀ k n c, (mac k n c).length = 16

/-- `_decrypt_data`, lines 152–174, over an abstract AEAD `A` and an abstract
key-derivation function `kdf` (`PBKDF2(password, salt, 32, count=100000)`):
base64-decode (failure is wrapped as the generic `"Decryption failed"`),
slice `salt = bytes[:16]`, `nonce = bytes[16:32]`, `tag = bytes[32:48]`,
`ciphertext = bytes[48:]` — note that Python slicing never fails, there is no
length validation — derive the key, construct the cipher (pycryptodome
rejects an empty GCM nonce, wrapped as the same generic failure), and verify
the tag: `decrypt_and_verify` raises `"MAC check failed"` when the received
tag differs from the 16-byte computed one. -/
def decrypt_data (A : AEAD) (kdf : String → List Nat → List Nat)
    (encrypted_data : String) (password : String) : Except StegoError (List Nat) :=
  match b64decode encrypted_data with
  | none => Except.error StegoError.decryptionFailed
  | some encrypted_bytes =>
    let salt := encrypted_bytes.take 16
    let nonce := (encrypted_bytes.drop 16).take 16
    let tag := (encrypted_bytes.drop 32).take 16
    let ciphertext := encrypted_bytes.drop 48
    let key := kdf password salt
    if nonce = [] then Except.error StegoError.decryptionFailed
    else if tag = A.mac key nonce ciphertext then Except.ok (A.dec key nonce ciphertext)
    else Except.error StegoError.authenticationFailure

/-- A representative instance of the abstract AEAD collaborator, used to
evaluate the envelope handling at concrete inputs: the MAC is the constant
16-byte zero tag and raw decryption is the identity.  The envelope-handling
facts proved below hold for every `AEAD`. -/
def trivialAEAD : AEAD where
  mac := fun _ _ _ => List.replicate 16 0
  dec := fun _ _ c => c
  mac_length := fun _ _ _ => List.length_replicate ..

/-- A representative instance of the abstract key-derivation collaborator
(`PBKDF2(password, salt, 32, count=100000)`), used only to evaluate the
envelope handling at concrete inputs. -/
def trivialKDF : String → List Nat → List Nat := fun _ _ => List.replicate 32 0

/-- A base64 envelope that decodes to 47 zero bytes — one byte short of the
48-byte `salt || nonce || tag` header the specification postulates. -/
def envelope47 : String := String.mk (List.replicate 63 'A' ++ ['='])

/-! ### Helper lemmas about the bit-level codec -/

theorem byteToBits_length (b : Nat) : (byteToBits b).length = 8 := rfl

theorem bytesToBits_length (l : List Nat) : (bytesToBits l).length = 8 * l.length := by
  induction l with
  | nil => rfl
  | cons b rest ih =>
    simp only [bytesToBits, List.length_append, byteToBits_length, ih, List.length_cons]
    omega

theorem bytesToBits_append (l₁ l₂ : List Nat) :
    bytesToBits (l₁ ++ l₂) = bytesToBits l₁ ++ bytesToBits l₂ := by
  induction l₁ with
  | nil => rfl
  | cons b rest ih => simp [bytesToBits, ih]

theorem setLSB_eq : ∀ v : Nat, v < 256 → ∀ b : Bool, setLSB v b = 2 * (v / 2) + b.toNat := by
  decide

theorem lsbBit_setLSB (v : Nat) (hv : v < 256) (b : Bool) : lsbBit (setLSB v b) = b := by
  rw [setLSB_eq v hv b]
  unfold lsbBit
  rw [Nat.and_one_is_mod]
  cases b <;> simp <;> omega

theorem embedBits_nil_bits (buf : List Nat) : embedBits buf [] = buf := by
  cases buf <;> rfl

theorem embedBits_length (buf : List Nat) (bits : List Bool) :
    (embedBits buf bits).length = buf.length := by
  induction buf generalizing bits with
  | nil => cases bits <;> rfl
  | cons v rest ih =>
    cases bits with
    | nil => rfl
    | cons b bt => simp [embedBits, ih]

theorem embedBits_map_lsb (buf : List Nat) (bits : List Bool)
    (hlen : bits.length ≤ buf.length) (hv : ∀ v ∈ buf, v < 256) :
    (embedBits buf bits).map lsbBit = bits ++ (buf.drop bits.length).map lsbBit := by
  induction buf generalizing bits with
  | nil =>
    cases bits with
    | nil => rfl
    | cons b bt => simp at hlen
  | cons v rest ih =>
    cases bits with
    | nil => simp [embedBits_nil_bits]
    | cons b bt =>
      simp only [embedBits, List.map_cons, List.cons_append, List.length_cons,
        List.drop_succ_cons]
      refine congrArg₂ List.cons ?_ ?_
      · exact lsbBit_setLSB v (hv v (List.mem_cons_self ..)) b
      · exact ih bt (by simpa using hlen) (fun x hx => hv x (List.mem_cons_of_mem _ hx))

theorem embedBits_getElem?_of_le (buf : List Nat) (bits : List Bool) (i : Nat)
    (h : bits.length ≤ i) : (embedBits buf bits)[i]? = buf[i]? := by
  induction buf generalizing bits i with
  | nil => cases bits <;> rfl
  | cons v rest ih =>
    cases bits with
    | nil => rfl
    | cons b bt =>
      cases i with
      | zero => simp at h
      | succ j =>
        simp only [embedBits, List.getElem?_cons_succ]
        exact ih bt j (by simpa using h)

theorem embedBits_map_div (buf : List Nat) (bits : List Bool) (hv : ∀ v ∈ buf, v < 256) :
    (embedBits buf bits).map (· / 2) = buf.map (· / 2) := by
  induction buf generalizing bits with
  | nil => cases bits <;> rfl
  | cons v rest ih =>
    cases bits with
    | nil => rw [embedBits_nil_bits]
    | cons b bt =>
      simp only [embedBits, List.map_cons]
      rw [setLSB_eq v (hv v (List.mem_cons_self ..)) b,
        ih bt (fun x hx => hv x (List.mem_cons_of_mem _ hx))]
      refine congrArg₂ List.cons ?_ rfl
      cases b <;> simp <;> omega

theorem embedBits_lt (buf : List Nat) (bits : List Bool) (hv : ∀ v ∈ buf, v < 256) :
    ∀ w ∈ embedBits buf bits, w < 256 := by
  induction buf generalizing bits with
  | nil => cases bits <;> simp [embedBits]
  | cons v rest ih =>
    cases bits with
    | nil => rw [embedBits_nil_bits]; exact hv
    | cons b bt =>
      intro w hw
      rcases List.mem_cons.mp hw with h | h
      · subst h
        rw [setLSB_eq v (hv v (List.mem_cons_self ..)) b]
        have : v / 2 < 128 := by
          have := hv v (List.mem_cons_self ..); omega
        cases b <;> simp <;> omega
      · exact ih bt (fun x hx => hv x (List.mem_cons_of_mem _ hx)) w h

/-! ### Helper lemmas about the delimiter search -/

theorem isPrefixOf_getElem? (l : List Bool) (s : List Bool) (h : l.isPrefixOf s) :
    ∀ i, i < l.length → s[i]? = l[i]? := by
  induction l generalizing s with
  | nil => intro i hi; simp at hi
  | cons x t ih =>
    cases s with
    | nil => simp [List.isPrefixOf] at h
    | cons y st =>
      simp only [List.isPrefixOf, Bool.and_eq_true, beq_iff_eq] at h
      intro i hi
      cases i with
      | zero => simp [h.1]
      | succ j =>
        simp only [List.getElem?_cons_succ]
        exact ih st h.2 j (by simpa using hi)

theorem isPrefixOf_append_self (l r : List Bool) : l.isPrefixOf (l ++ r) := by
  induction l with
  | nil => simp [List.isPrefixOf]
  | cons x t ih => simp [List.isPrefixOf, ih]

theorem findDelim_of_isPrefixOf (s : List Bool) (h : delim.isPrefixOf s) :
    findDelim s = some 0 := by
  cases s with
  | nil => exact absurd h (by decide)
  | cons a t => simp [findDelim, h]

theorem findDelim_spec (s : List Bool) (p : Nat)
    (hmatch : delim.isPrefixOf (s.drop p))
    (hbefore : ∀ q, q < p → ¬ delim.isPrefixOf (s.drop q)) :
    findDelim s = some p := by
  induction s generalizing p with
  | nil =>
    rw [List.drop_nil] at hmatch
    exact absurd hmatch (by decide)
  | cons a t ih =>
    cases p with
    | zero => exact findDelim_of_isPrefixOf _ hmatch
    | succ q =>
      have h0 : ¬ delim.isPrefixOf (a :: t) := hbefore 0 (Nat.succ_pos q)
      rw [findDelim, if_neg h0]
      rw [ih q (by simpa using hmatch)
        (fun r hr hpre => hbefore (r + 1) (by omega) (by simpa using hpre))]
      rfl

theorem delim_getElem?_of_lt (i : Nat) (h : i < 15) : delim[i]? = some true := by
  revert h
  revert i
  decide

theorem delim_getElem?_last : delim[15]? = some false := rfl

theorem testBit7_false (b : Nat) (h : b < 128) : b.testBit 7 = false :=
  Nat.testBit_lt_two_pow h

theorem bytesToBits_msb (pl : List Nat) (hpl : ∀ b ∈ pl, b < 128) :
    ∀ q, q % 8 = 0 → q < 8 * pl.length → (bytesToBits pl)[q]? = some false := by
  induction pl with
  | nil => intro q _ hq; simp at hq
  | cons b rest ih =>
    intro q hmod hlt
    rw [bytesToBits]
    by_cases hq8 : q < 8
    · have hq0 : q = 0 := by omega
      subst hq0
      have hb : b < 128 := hpl b (List.mem_cons_self ..)
      rw [List.getElem?_append, if_pos (by rw [byteToBits_length]; omega)]
      simp [byteToBits, testBit7_false b hb]
    · rw [List.getElem?_append_right (by rw [byteToBits_length]; omega), byteToBits_length]
      refine ih (fun x hx => hpl x (List.mem_cons_of_mem _ hx)) (q - 8) (by omega) ?_
      simp only [List.length_cons] at hlt
      omega

/-- Position of the delimiter after embedding: when every payload character
except possibly the last one is below 128, the bit stream
`payload bits ++ delimiter ++ anything` contains the delimiter first at
exactly the end of the payload bits.  (Each character below 128 contributes
a `0` at a bit position divisible by 8, so no run of 15 `1`s fits inside the
payload bits; and no window that overlaps the real delimiter can end in the
required `0`.) -/
theorem findDelim_append_delim (front : List Nat) (last : Nat) (r : List Bool)
    (hfront : ∀ b ∈ front, b < 128) :
    findDelim (bytesToBits (front ++ [last]) ++ (delim ++ r))
      = some (8 * front.length + 8) := by
  set bits := bytesToBits (front ++ [last]) with hbits
  have hL : bits.length = 8 * front.length + 8 := by
    rw [hbits, bytesToBits_length]
    simp
    omega
  rw [show 8 * front.length + 8 = bits.length by omega]
  apply findDelim_spec
  · rw [List.drop_left]
    exact isPrefixOf_append_self delim r
  · intro q hq hpre
    have hget : ∀ i, i < 16 → (bits ++ (delim ++ r))[q + i]? = delim[i]? := by
      intro i hi
      have := isPrefixOf_getElem? delim _ hpre i (by simpa [delim] using hi)
      rwa [List.getElem?_drop] at this
    by_cases hcase : q + 15 < bits.length
    · -- the window would lie inside the payload bits, but a multiple of 8
      -- within it carries an MSB `0` of a character below 128
      have e3 := hget (8 * ((q + 7) / 8) - q) (by omega)
      rw [show q + (8 * ((q + 7) / 8) - q) = 8 * ((q + 7) / 8) by omega] at e3
      rw [delim_getElem?_of_lt _ (by omega)] at e3
      rw [List.getElem?_append, if_pos (by omega)] at e3
      rw [hbits, bytesToBits_append] at e3
      rw [List.getElem?_append,
        if_pos (by rw [bytesToBits_length]; omega)] at e3
      rw [bytesToBits_msb front hfront _ (by omega) (by omega)] at e3
      simp at e3
    · -- the window overlaps the delimiter: its last bit must be `0`, but
      -- every delimiter bit it can reach there is a `1`
      have e4 := hget 15 (by omega)
      rw [delim_getElem?_last] at e4
      rw [List.getElem?_append_right (by omega)] at e4
      rw [List.getElem?_append, if_pos (by simp [delim]; omega)] at e4
      rw [delim_getElem?_of_lt _ (by omega)] at e4
      simp at e4

/-! ### Helper lemmas about byte reconstruction -/

theorem bitsToByte_byteToBits : ∀ b : Nat, b < 256 → bitsToByte (byteToBits b) = b := by
  decide

theorem bitsToBytesTrunc_cons (b : Nat) (hb : b < 256) (rest : List Bool) :
    bitsToBytesTrunc (byteToBits b ++ rest)
      = if b ≤ 127 then b :: bitsToBytesTrunc rest else [] := by
  show bitsToBytesTrunc (b.testBit 7 :: b.testBit 6 :: b.testBit 5 :: b.testBit 4 ::
    b.testBit 3 :: b.testBit 2 :: b.testBit 1 :: b.testBit 0 :: rest) = _
  rw [bitsToBytesTrunc]
  rw [show ([b.testBit 7, b.testBit 6, b.testBit 5, b.testBit 4,
    b.testBit 3, b.testBit 2, b.testBit 1, b.testBit 0] : List Bool) = byteToBits b from rfl]
  rw [bitsToByte_byteToBits b hb]

theorem bitsToBytesTrunc_ascii (pl : List Nat) (h : ∀ b ∈ pl, b < 128) :
    bitsToBytesTrunc (bytesToBits pl) = pl := by
  induction pl with
  | nil => rfl
  | cons b rest ih =>
    have hb : b < 128 := h b (List.mem_cons_self ..)
    rw [bytesToBits, bitsToBytesTrunc_cons b (by omega), if_pos (by omega),
      ih (fun x hx => h x (List.mem_cons_of_mem _ hx))]

theorem bitsToBytesTrunc_stops (pre : List Nat) (b : Nat) (suf : List Nat)
    (hpre : ∀ x ∈ pre, x < 128) (hb1 : 127 < b) (hb2 : b < 256) :
    bitsToBytesTrunc (bytesToBits (pre ++ b :: suf)) = pre := by
  induction pre with
  | nil =>
    rw [List.nil_append, bytesToBits, bitsToBytesTrunc_cons b hb2, if_neg (by omega)]
  | cons x rest ih =>
    have hx : x < 128 := hpre x (List.mem_cons_self ..)
    rw [List.cons_append, bytesToBits, bitsToBytesTrunc_cons x (by omega), if_pos (by omega),
      ih (fun y hy => hpre y (List.mem_cons_of_mem _ hy))]

/-! ### The embed–extract pipeline -/

/-- Evaluation of `extract_data` after a successful `hide_data`, for any
payload whose characters below the last one are all below 128: the delimiter
is found exactly at the end of the payload bits, the recovered bit count is a
multiple of 8, and the result is the truncating byte reconstruction of the
payload bits (or the `noValidData` error when it is empty). -/
theorem extract_after_embed (buf front : List Nat) (last : Nat)
    (hbuf : ∀ v ∈ buf, v < 256) (hfront : ∀ b ∈ front, b < 128)
    (hcap : 8 * (front.length + 1) + 16 ≤ buf.length) :
    (hide_data_core buf (front ++ [last])).bind extract_data
      = (if bitsToBytesTrunc (bytesToBits (front ++ [last])) = []
         then Except.error StegoError.noValidData
         else Except.ok (bitsToBytesTrunc (bytesToBits (front ++ [last])))) := by
  have hplen : (front ++ [last]).length = front.length + 1 := by simp
  have hblen : (bytesToBits (front ++ [last]) ++ delim).length
      = 8 * front.length + 8 + 16 := by
    rw [List.length_append, bytesToBits_length, hplen]
    simp [delim]
    omega
  have hfits : ¬ (bytesToBits (front ++ [last]) ++ delim).length > buf.length := by
    omega
  have hcore : hide_data_core buf (front ++ [last])
      = Except.ok (embedBits buf (bytesToBits (front ++ [last]) ++ delim)) := by
    rw [hide_data_core, hide_data_run]
    simp only [if_neg hfits]
  rw [hcore, Except.bind]
  rw [extract_data]
  have hmap : (embedBits buf (bytesToBits (front ++ [last]) ++ delim)).map lsbBit
      = bytesToBits (front ++ [last])
        ++ (delim ++ (buf.drop (8 * front.length + 8 + 16)).map lsbBit) := by
    rw [embedBits_map_lsb buf _ (by omega) hbuf, hblen, ← List.append_assoc]
  rw [hmap, findDelim_append_delim front last _ hfront]
  have htake : (bytesToBits (front ++ [last])
        ++ (delim ++ (buf.drop (8 * front.length + 8 + 16)).map lsbBit)).take
          (8 * front.length + 8)
      = bytesToBits (front ++ [last]) := by
    rw [show 8 * front.length + 8 = (bytesToBits (front ++ [last])).length by
        rw [bytesToBits_length, hplen]; omega]
    exact List.take_left _ _
  simp only [htake]
  rw [if_neg (by rw [bytesToBits_length, hplen]; omega)]

/-! ### The claims -/

/-- C1 (counterexample): the unrestricted no-password round-trip fails on the
code.  The empty string fits every 16-sample image, yet extraction of its
embedding raises `"No valid data could be extracted"`; and the UTF-8 bytes
`[195, 136]` (the two-byte encoding of `"È"`) fit a 40-sample image, yet both
bytes exceed 127, so the extraction loop truncates them away and the same
error is raised instead of returning the payload. -/
theorem roundtrip_no_password_counterexample :
    (hide_data_core (List.replicate 16 0) []).bind extract_data
      = Except.error StegoError.noValidData
    ∧ (hide_data_core (List.replicate 40 0) [195, 136]).bind extract_data
      = Except.error StegoError.noValidData :=
  ⟨by decide, by decide⟩

/-- C1 (amended): for every non-empty payload of bytes below 128 (ASCII) that
fits the image together with the 16-bit marker, extracting from the image
produced by embedding returns exactly the payload. -/
theorem roundtrip_no_password (buf payload : List Nat)
    (hbuf : ∀ v ∈ buf, v < 256) (hascii : ∀ b ∈ payload, b < 128)
    (hne : payload ≠ []) (hcap : 8 * payload.length + 16 ≤ buf.length) :
    (hide_data_core buf payload).bind extract_data = Except.ok payload := by
  obtain ⟨front, last, rfl⟩ : ∃ front last, payload = front ++ [last] :=
    ⟨payload.dropLast, payload.getLast hne, (List.dropLast_append_getLast hne).symm⟩
  have hfront : ∀ b ∈ front, b < 128 := fun b hb => hascii b (List.mem_append_left _ hb)
  rw [extract_after_embed buf front last hbuf hfront
    (by simp only [List.length_append, List.length_cons, List.length_nil] at hcap; omega)]
  rw [bitsToBytesTrunc_ascii _ hascii, if_neg (by simp)]

/-- C1 (witness): round-trip of `"hi"` (`[104, 105]`) through a 40-sample
image whose samples are all 7. -/
theorem roundtrip_no_password_witness :
    (hide_data_core (List.replicate 40 7) [104, 105]).bind extract_data
      = Except.ok [104, 105] :=
  roundtrip_no_password (List.replicate 40 7) [104, 105]
    (by decide) (by decide) (by decide) (by decide)

/-- C2: `analyze_image_capacity` reports
`max_bytes = max_characters = ⌊(sampleCount − 16) / 8⌋` (the delimiter is 16
bits long), reports the sample count itself, and leaves the pixel buffer
unchanged. -/
theorem analyze_image_capacity_correct (buf : List Nat) :
    (analyze_image_capacity buf).1.max_bytes = ⌊((buf.length : ℚ) - 16) / 8⌋
    ∧ (analyze_image_capacity buf).1.max_characters
        = (analyze_image_capacity buf).1.max_bytes
    ∧ (analyze_image_capacity buf).1.total_pixels = buf.length
    ∧ (analyze_image_capacity buf).2 = buf := by
  refine ⟨?_, rfl, rfl, rfl⟩
  show ((buf.length : Int) - (delim.length : Int)).fdiv 8 = _
  rw [show ((delim.length : Nat) : Int) = 16 from rfl]
  rw [Int.fdiv_eq_ediv _ (by norm_num)]
  rw [show ((buf.length : ℚ) - 16) = (((buf.length : Int) - 16 : Int) : ℚ) by push_cast; ring]
  rw [show ((8 : ℚ)) = ((8 : ℕ) : ℚ) by norm_num]
  rw [Rat.floor_intCast_div_natCast]
  rfl

/-- C3: `hide_data` raises `capacityExceeded` exactly when the bit sequence
(8 bits per payload character plus the 16 marker bits) is longer than the
sample count — so a bit sequence of exactly `sampleCount` bits succeeds and a
longer one fails — and on failure the check precedes the embedding loop, so
the buffer is returned unchanged. -/
theorem hide_data_capacity_boundary (buf payload : List Nat) :
    ((hide_data_run buf payload).1 = Except.error StegoError.capacityExceeded
       ↔ buf.length < 8 * payload.length + 16)
    ∧ ((hide_data_run buf payload).1 = Except.ok ()
       ↔ 8 * payload.length + 16 ≤ buf.length)
    ∧ (buf.length < 8 * payload.length + 16 → (hide_data_run buf payload).2 = buf) := by
  have hlen : (bytesToBits payload ++ delim).length = 8 * payload.length + 16 := by
    rw [List.length_append, bytesToBits_length]
    simp [delim]
  rw [hide_data_run]
  by_cases h : (bytesToBits payload ++ delim).length > buf.length
  · rw [if_pos h]
    exact ⟨⟨fun _ => by omega, fun _ => rfl⟩,
      ⟨fun hco => by simp at hco, fun hle => ((by omega : False)).elim⟩,
      fun _ => rfl⟩
  · rw [if_neg h]
    exact ⟨⟨fun hco => by simp at hco, fun hlt => ((by omega : False)).elim⟩,
      ⟨fun _ => by omega, fun _ => rfl⟩,
      fun hlt => ((by omega : False)).elim⟩

/-- C3 (witness): 15 samples cannot hold the 16 marker bits and the buffer
comes back untouched; 16 samples hold exactly the empty payload's 16-bit
sequence. -/
theorem hide_data_capacity_boundary_witness :
    (hide_data_run (List.replicate 15 0) []).2 = List.replicate 15 0
    ∧ (hide_data_run (List.replicate 16 0) []).1 = Except.ok () :=
  ⟨(hide_data_capacity_boundary (List.replicate 15 0) []).2.2 (by decide),
   (hide_data_capacity_boundary (List.replicate 16 0) []).2.1.mpr (by decide)⟩

/-- C4: a successful embedding modifies only the samples at flattened indices
below the bit-sequence length; every sample at an index at or beyond
`8 * payloadLength + 16` keeps its input value. -/
theorem hide_data_frame (buf payload out : List Nat)
    (h : hide_data_core buf payload = Except.ok out) :
    ∀ i, 8 * payload.length + 16 ≤ i → out[i]? = buf[i]? := by
  intro i hi
  rw [hide_data_core, hide_data_run] at h
  by_cases hc : (bytesToBits payload ++ delim).length > buf.length
  · rw [if_pos hc] at h
    simp at h
  · simp only [if_neg hc, Except.ok.injEq] at h
    subst h
    apply embedBits_getElem?_of_le
    rw [List.length_append, bytesToBits_length]
    simp [delim]
    omega

/-- C4 (witness): embedding the empty payload into twenty samples of value 5
rewrites only the first 16 samples; sample 17 is untouched. -/
theorem hide_data_frame_witness :
    ([5, 5, 5, 5, 5, 5, 5, 5, 5, 5, 5, 5, 5, 5, 5, 4, 5, 5, 5, 5] : List Nat)[17]?
      = (List.replicate 20 (5 : Nat))[17]? :=
  hide_data_frame (List.replicate 20 5) []
    [5, 5, 5, 5, 5, 5, 5, 5, 5, 5, 5, 5, 5, 5, 5, 4, 5, 5, 5, 5]
    (by decide) 17 (by decide)

/-- C5 (counterexample): a reconstructed byte above 127 before the marker does
not make extraction fail with `InvalidByteValue`.  On an image whose LSBs
encode the bytes `[65, 200]` followed by the delimiter, extraction succeeds
and silently returns the truncated prefix `[65]`. -/
theorem invalid_byte_truncation_counterexample :
    extract_data ((bytesToBits [65, 200] ++ delim).map Bool.toNat)
      = Except.ok [65] := by
  decide

/-- C5 (amended): the extraction loop treats the first reconstructed byte
above 127 as an implicit end-of-data: it stops there and returns the bytes
before it (no `InvalidByteValue` error exists in the code; extraction fails —
with the `noValidData` error — only when that prefix is empty). -/
theorem extract_truncates_at_high_byte (buf pre : List Nat) (b : Nat)
    (hbuf : ∀ v ∈ buf, v < 256) (hpre : ∀ x ∈ pre, x < 128)
    (hb1 : 127 < b) (hb2 : b < 256) (hne : pre ≠ [])
    (hcap : 8 * (pre.length + 1) + 16 ≤ buf.length) :
    (hide_data_core buf (pre ++ [b])).bind extract_data = Except.ok pre := by
  rw [extract_after_embed buf pre b hbuf hpre hcap]
  rw [bitsToBytesTrunc_stops pre b [] hpre hb1 hb2, if_neg hne]

/-- C5 (witness): embedding `[65, 200]` into a 40-sample image and extracting
returns the truncated `[65]`. -/
theorem extract_truncates_at_high_byte_witness :
    (hide_data_core (List.replicate 40 0) [65, 200]).bind extract_data
      = Except.ok [65] :=
  extract_truncates_at_high_byte (List.replicate 40 0) [65] 200
    (by decide) (by decide) (by decide) (by decide) (by decide) (by decide)

/-- C6 (counterexample): `_decrypt_data` performs no envelope length check.
`envelope47` base64-decodes to 47 bytes — shorter than the 48-byte header —
yet decryption does not fail with a malformed-envelope error: slicing
proceeds (the tag component is left 15 bytes long) and the failure arises
only at tag verification, as `authenticationFailure`. -/
theorem decrypt_no_length_check_counterexample :
    (b64decode envelope47).map List.length = some 47
    ∧ decrypt_data trivialAEAD trivialKDF envelope47 "password"
        = Except.error StegoError.authenticationFailure
    ∧ decrypt_data trivialAEAD trivialKDF envelope47 "password"
        ≠ Except.error StegoError.malformedEnvelope :=
  ⟨by decide, by decide, by decide⟩

/-- C6 (amended): decryption fails when base64 decoding fails, but with the
generic decryption failure, not a distinct `MalformedEnvelope` kind; decoded
envelopes shorter than 48 bytes are never rejected by a length check — they
are sliced into truncated components and can only fail later (their tag
component is shorter than the 16 bytes any AEAD tag has, so verification can
never succeed and no plaintext is ever returned). -/
theorem decrypt_envelope_validation (A : AEAD) (kdf : String → List Nat → List Nat)
    (password : String) :
    (∀ s, b64decode s = none
       → decrypt_data A kdf s password = Except.error StegoError.decryptionFailed)
    ∧ (∀ s bs pt, b64decode s = some bs → bs.length < 48
       → decrypt_data A kdf s password ≠ Except.ok pt) := by
  constructor
  · intro s hs
    rw [decrypt_data, hs]
  · intro s bs pt hs hlen
    rw [decrypt_data, hs]
    simp only
    by_cases hn : (bs.drop 16).take 16 = []
    · rw [if_pos hn]
      simp
    · rw [if_neg hn]
      have htag : ((bs.drop 32).take 16).length < 16 := by
        rw [List.length_take, List.length_drop]
        omega
      rw [if_neg (fun he => by
        rw [he, A.mac_length] at htag
        omega)]
      simp

/-- C6 (witness): `"AAAAA"` is rejected by the base64 decoder and surfaces the
generic decryption failure; the 47-byte `envelope47` never yields a
plaintext. -/
theorem decrypt_envelope_validation_witness :
    decrypt_data trivialAEAD trivialKDF "AAAAA" "pw"
      = Except.error StegoError.decryptionFailed
    ∧ decrypt_data trivialAEAD trivialKDF envelope47 "pw" ≠ Except.ok [0] :=
  ⟨(decrypt_envelope_validation trivialAEAD trivialKDF "pw").1 "AAAAA" (by decide),
   (decrypt_envelope_validation trivialAEAD trivialKDF "pw").2 envelope47
     (List.replicate 47 0) [0] (by decide) (by decide)⟩

/-- C8 (counterexample): `hide_data`'s catch-all `except` clause converts a
capacity failure into the non-error return value `None`: the body raises
`capacityExceeded`, but the caller of `hide_data` receives `none`, with the
error kind discarded. -/
theorem error_swallowing_counterexample :
    hide_data_core (List.replicate 15 0) [] = Except.error StegoError.capacityExceeded
    ∧ hide_data (List.replicate 15 0) [] = none :=
  ⟨by decide, by decide⟩

/-- C8 (amended): `extract_data` and `_decrypt_data` surface their failures
to the caller, but `hide_data` catches every failure of its body and returns
`None` — the caller receives `none` exactly when the body failed, and the
specific error kind is never surfaced. -/
theorem hide_data_swallows_errors (buf payload : List Nat) :
    (hide_data buf payload = none ↔ ∃ e, hide_data_core buf payload = Except.error e)
    ∧ ∀ out, hide_data buf payload = some out ↔ hide_data_core buf payload = Except.ok out := by
  cases hcore : hide_data_core buf payload with
  | ok o => simp [hide_data, hcore]
  | error e => simp [hide_data, hcore]

/-- C8 (witness): the swallowing at the capacity failure of a 15-sample
image. -/
theorem hide_data_swallows_errors_witness :
    hide_data (List.replicate 15 0) [] = none :=
  (hide_data_swallows_errors (List.replicate 15 0) []).1.mpr
    ⟨StegoError.capacityExceeded, by decide⟩

/-- C9: extracting from the embedding of the empty payload fails with
`"No valid data could be extracted"` instead of returning the empty payload:
the delimiter is found at bit position 0, the recovered text is empty, and
`extract_data` raises. -/
theorem extract_empty_payload_fails (buf : List Nat)
    (hbuf : ∀ v ∈ buf, v < 256) (hcap : 16 ≤ buf.length) :
    (hide_data_core buf []).bind extract_data = Except.error StegoError.noValidData := by
  have hcore : hide_data_core buf [] = Except.ok (embedBits buf delim) := by
    rw [hide_data_core, hide_data_run]
    simp only [bytesToBits, List.nil_append]
    rw [if_neg (by simp [delim]; omega)]
  rw [hcore, Except.bind, extract_data]
  rw [embedBits_map_lsb buf delim (by simp [delim]; omega) hbuf]
  rw [findDelim_of_isPrefixOf _ (isPrefixOf_append_self delim _)]
  rfl

/-- C9 (witness): the empty payload embedded in a 16-sample image. -/
theorem extract_empty_payload_fails_witness :
    (hide_data_core (List.replicate 16 5) []).bind extract_data
      = Except.error StegoError.noValidData :=
  extract_empty_payload_fails (List.replicate 16 5) (by decide) (by decide)

/-- C10: a successful embedding preserves the sample count and changes each
sample only in its least significant bit — every output sample shifted right
by one equals the input sample shifted right by one, and every output sample
stays below 256. -/
theorem hide_data_lsb_only (buf payload out : List Nat)
    (hbuf : ∀ v ∈ buf, v < 256) (h : hide_data_core buf payload = Except.ok out) :
    out.length = buf.length
    ∧ out.map (· / 2) = buf.map (· / 2)
    ∧ (out.all fun w => decide (w < 256)) = true := by
  rw [hide_data_core, hide_data_run] at h
  by_cases hc : (bytesToBits payload ++ delim).length > buf.length
  · rw [if_pos hc] at h
    simp at h
  · simp only [if_neg hc, Except.ok.injEq] at h
    subst h
    refine ⟨embedBits_length _ _, embedBits_map_div _ _ hbuf, ?_⟩
    rw [List.all_eq_true]
    intro w hw
    simpa using embedBits_lt buf _ hbuf w hw

/-- C10 (witness): embedding the empty payload into sixteen samples of value
200 yields `[201 × 15, 200]`, whose right-shifts agree with the input's. -/
theorem hide_data_lsb_only_witness :
    ([201, 201, 201, 201, 201, 201, 201, 201,
      201, 201, 201, 201, 201, 201, 201, 200] : List Nat).length
        = (List.replicate 16 (200 : Nat)).length
    ∧ ([201, 201, 201, 201, 201, 201, 201, 201,
        201, 201, 201, 201, 201, 201, 201, 200] : List Nat).map (· / 2)
        = (List.replicate 16 (200 : Nat)).map (· / 2)
    ∧ (([201, 201, 201, 201, 201, 201, 201, 201,
        201, 201, 201, 201, 201, 201, 201, 200] : List Nat).all
          fun w => decide (w < 256)) = true :=
  hide_data_lsb_only (List.replicate 16 200) []
    [201, 201, 201, 201, 201, 201, 201, 201,
     201, 201, 201, 201, 201, 201, 201, 200]
    (by decide) (by decide)

end ImageSteganography
